import Mathlib

set_option maxRecDepth 8000

namespace GenAst

/-- Strings of the Python source are modelled as lists of characters. -/
abbrev Str : Type := List Char

/-- Errors surfaced by the generator. The ValueError raised by unpacking the
rule split (spec name MalformedRuleError) carries the offending chunk; the
IndexError raised by indexing the field split (spec name MalformedFieldError)
carries the offending field string. -/
inductive GenError : Type where
  | malformedRule : Str → GenError
  | malformedField : Str → GenError
  deriving DecidableEq

instance {ε α : Type} [DecidableEq ε] [DecidableEq α] : DecidableEq (Except ε α) := fun x y =>
  match x, y with
  | .ok a, .ok b =>
    if h : a = b then .isTrue (by rw [h]) else .isFalse (fun hh => h (Except.ok.inj hh))
  | .error e, .error d =>
    if h : e = d then .isTrue (by rw [h]) else .isFalse (fun hh => h (Except.error.inj hh))
  | .ok _, .error _ => .isFalse (fun hh => Except.noConfusion hh)
  | .error _, .ok _ => .isFalse (fun hh => Except.noConfusion hh)

/-- ASCII whitespace stripped by the Python str.strip method. -/
def isPySpace (c : Char) : Bool :=
  c == ' ' || c == '\t' || c == '\n' || c == '\x0b' || c == '\x0c' || c == '\r'

/-- Python: grammar.replace with the newline character replaced by nothing. -/
def removeNewlines (s : Str) : Str := s.filter (fun c => c != '\n')

/-- Python: str.strip with no argument, removing leading and trailing whitespace. -/
def strip (s : Str) : Str :=
  ((s.dropWhile isPySpace).reverse.dropWhile isPySpace).reverse

/-- Python: str.split with a one character separator, such as the semicolon,
the slash, or the single space.  Leftmost matches are cut out and the pieces
between them returned; the result is always nonempty. -/
def splitChar (c : Char) : Str → List Str
  | [] => [[]]
  | x :: xs =>
    if x = c then [] :: splitChar c xs
    else
      match splitChar c xs with
      | [] => [[x]]
      | h :: t => (x :: h) :: t

/-- Python: str.split on the three character separator space, colon, space,
exactly as in the line name, fields = line.split of the source.  Matching is
leftmost and non-overlapping, as in Python. -/
def splitColon : Str → List Str
  | [] => [[]]
  | [x] => [[x]]
  | [x, y] => [[x, y]]
  | x :: y :: z :: rest =>
    if x = ' ' ∧ y = ':' ∧ z = ' ' then [] :: splitColon rest
    else
      match splitColon (y :: z :: rest) with
      | [] => [[x]]
      | h :: t => (x :: h) :: t

/-- Number of non-overlapping occurrences of the separator space, colon, space,
counted leftmost-first exactly as Python str.count does. -/
def colonCount : Str → Nat
  | [] => 0
  | [_] => 0
  | [_, _] => 0
  | x :: y :: z :: rest =>
    if x = ' ' ∧ y = ':' ∧ z = ' ' then colonCount rest + 1
    else colonCount (y :: z :: rest)

/-- Interleaves the separator space, colon, space between the given pieces;
inverse of splitColon. -/
def joinColon : List Str → Str
  | [] => []
  | [x] => x
  | x :: xs => x ++ ' ' :: ':' :: ' ' :: joinColon xs

/-- Python: str.split on the two character separator comma, space, as in
fields.split of the source. -/
def splitCommaSpace : Str → List Str
  | [] => [[]]
  | [x] => [[x]]
  | x :: y :: rest =>
    if x = ',' ∧ y = ' ' then [] :: splitCommaSpace rest
    else
      match splitCommaSpace (y :: rest) with
      | [] => [[x]]
      | h :: t => (x :: h) :: t

/-- Python: str.replace of the five character extension dot j a v a by the
empty string. -/
def removeJava : Str → Str
  | a :: b :: c :: d :: e :: rest =>
    if a = '.' ∧ b = 'j' ∧ c = 'a' ∧ d = 'v' ∧ e = 'a' then removeJava rest
    else a :: removeJava (b :: c :: d :: e :: rest)
  | s => s

/-- Error-propagating map over a list, processing elements left to right and
stopping at the first failure, as the Python for loop does. -/
def mapE {α β : Type} {ε : Type} (f : α → Except ε β) : List α → Except ε (List β)
  | [] => .ok []
  | x :: xs =>
    match f x with
    | .error e => .error e
    | .ok y =>
      match mapE f xs with
      | .error e => .error e
      | .ok ys => .ok (y :: ys)

/-- Python: name, fields = line.split on the separator space, colon, space.
The unpacking raises a ValueError (MalformedRuleError) unless the split has
exactly two parts. -/
def parseRule (line : Str) : Except GenError (Str × Str) :=
  match splitColon line with
  | [name, fields] => .ok (name, fields)
  | _ => .error (.malformedRule line)

/-- Python: field.split on a single space, indexed at position 1.  The
indexing raises an IndexError (MalformedFieldError) when the split has fewer
than two parts. -/
def fieldName (field : Str) : Except GenError Str :=
  match splitChar ' ' field with
  | _ :: n :: _ => .ok n
  | _ => .error (.malformedField field)

/-- Python: the static class header line appended for each rule. -/
def classLine (base name : Str) : Str :=
  "\tstatic class ".toList ++ name ++ " extends ".toList ++ base ++ " \x7b\n".toList

/-- Python: the constructor header line; its parameter list is the raw fields
substring of the rule. -/
def ctorLine (name fields : Str) : Str :=
  "\t\tpublic ".toList ++ name ++ "(".toList ++ fields ++ ") \x7b\n".toList

/-- Python: one assignment statement inside the constructor, for one extracted
field name. -/
def assignLine (n : Str) : Str :=
  "\t\t\tthis.".toList ++ n ++ " = ".toList ++ n ++ ";\n".toList

/-- Python: one public field declaration line, built from the raw field string. -/
def declLine (field : Str) : Str :=
  "\t\tpublic ".toList ++ field ++ ";\n".toList

/-- Python: the line closing the constructor. -/
def ctorEnd : Str := "\t\t\x7d\n".toList

/-- Python: the line closing the class. -/
def classEnd : Str := "\t\x7d\n".toList

/-- The lines appended to body for one rule, in source order: class header,
constructor header, one assignment per extracted field name in field order,
constructor close, one public declaration per raw field string in field order,
class close. -/
def blockLines (base name fields : Str) (names : List Str) : List Str :=
  classLine base name :: ctorLine name fields ::
    (names.map assignLine ++ ctorEnd :: ((splitCommaSpace fields).map declLine ++ [classEnd]))

/-- The whole body contribution of one rule chunk: parse the chunk, extract
each field name, then emit the block lines; the first failure propagates. -/
def ruleBlock (base : Str) (line : Str) : Except GenError (List Str) :=
  match parseRule line with
  | .error e => .error e
  | .ok (name, fields) =>
    match mapE fieldName (splitCommaSpace fields) with
    | .error e => .error e
    | .ok names => .ok (blockLines base name fields names)

/-- Python: grammar.replace removing newlines, then strip, then split on the
semicolon, then del of the last element.  These are the chunks the for loop
iterates over. -/
def ruleChunks (g : Str) : List Str :=
  (splitChar ';' (strip (removeNewlines g))).dropLast

/-- One emitted block per surviving rule chunk, in order. -/
def genBlocks (base : Str) (g : Str) : Except GenError (List (List Str)) :=
  mapE (ruleBlock base) (ruleChunks g)

/-- Python: the header list; adjacent string literals concatenate into a single
string with the base name spliced in. -/
def headerText (base : Str) : Str :=
  "package com.craftinginterpreters.lox;\n\nimport java.util.List;\n\nclass ".toList
    ++ base ++ " \x7b\n".toList

/-- Python: the footer list, a single closing brace. -/
def footerText : Str := "\x7d".toList

/-- The full text handed to writelines: header, then every block line in
order, then the footer.  Any parse failure aborts before the file is opened. -/
def generate (base : Str) (g : Str) : Except GenError Str :=
  match genBlocks base g with
  | .error e => .error e
  | .ok blocks => .ok (headerText base ++ blocks.flatten.flatten ++ footerText)

/-- The parsed rule name of every surviving chunk, in order; these are the
strings spliced into the class header and constructor header lines. -/
def ruleNames (g : Str) : Except GenError (List Str) :=
  mapE (fun c => (parseRule c).map Prod.fst) (ruleChunks g)

/-- The parsed rule records, pairs of name and raw field list, in order. -/
def rulesOf (g : Str) : Except GenError (List (Str × Str)) :=
  mapE parseRule (ruleChunks g)

/-- Python: the hardcoded output path. -/
def path_name : Str := "../lox/Expr.java".toList

/-- Python: the base name, the last slash separated component of the path with
the java extension removed. -/
def base_name : Str := removeJava ((splitChar '/' path_name).getLastD [])

/-- Python: the hardcoded grammar constant, a triple quoted string beginning
and ending with a newline. -/
def grammar : Str :=
  "\nBinary : Expr left, Token operator, Expr right;\nGrouping : Expr expression;\nLiteral : Object value;\nUnary : Token operator, Expr right;\n".toList

/-- The driver on an arbitrary grammar text: the state is the content of the
output file (none when absent).  On success the generated text is written; on
failure the write never happens and the previous state is untouched, because
the source only opens the file after the body is fully built. -/
def runWith (g : Str) (fs : Option Str) : Option Str :=
  match generate base_name g with
  | .ok txt => some txt
  | .error _ => fs

/-- Python: main, run on the hardcoded grammar. -/
def runMain (fs : Option Str) : Option Str := runWith grammar fs

/-- Python: the module entry point.  When more than one argv entry is present
the second is bound to a variable that is never read, then main runs. -/
def program (argv : List Str) (fs : Option Str) : Option Str :=
  let _filename : Option Str := if argv.length > 1 then argv.get? 1 else none
  runMain fs

/-- Tests whether a generator outcome is a MalformedRuleError. -/
def isRuleError {α : Type} : Except GenError α → Bool
  | .error (.malformedRule _) => true
  | _ => false

/-- The splitColon result is never the empty list, matching Python where
str.split always returns at least one piece. -/
theorem splitColon_ne_nil (s : Str) : splitColon s ≠ [] := by
  match s with
  | [] => simp [splitColon]
  | [x] => simp [splitColon]
  | [x, y] => simp [splitColon]
  | x :: y :: z :: rest =>
    rw [splitColon]
    split
    · simp
    · rcases h : splitColon (y :: z :: rest) with _ | ⟨a, t⟩ <;> simp

/-- The number of pieces splitColon produces is one more than the number of
occurrences of the separator. -/
theorem splitColon_length (s : Str) : (splitColon s).length = colonCount s + 1 := by
  induction s using splitColon.induct with
  | case1 => simp [splitColon, colonCount]
  | case2 x => simp [splitColon, colonCount]
  | case3 x y => simp [splitColon, colonCount]
  | case4 x y z rest hc ih =>
    rw [splitColon, colonCount, if_pos hc, if_pos hc]
    simp [ih]
  | case5 x y z rest hc hnil ih =>
    exact absurd hnil (splitColon_ne_nil _)
  | case6 x y z rest hc h t hsp ih =>
    rw [splitColon, colonCount, if_neg hc, if_neg hc, hsp]
    rw [hsp] at ih
    simp at ih
    simp [ih]

/-- Joining the splitColon pieces with the separator restores the original
string. -/
theorem splitColon_join (s : Str) : joinColon (splitColon s) = s := by
  induction s using splitColon.induct with
  | case1 => simp [splitColon, joinColon]
  | case2 x => simp [splitColon, joinColon]
  | case3 x y => simp [splitColon, joinColon]
  | case4 x y z rest hc ih =>
    rw [splitColon, if_pos hc]
    rcases h : splitColon rest with _ | ⟨a, t⟩
    · exact absurd h (splitColon_ne_nil _)
    · rw [h] at ih
      obtain ⟨hx, hy, hz⟩ := hc
      subst hx; subst hy; subst hz
      rw [joinColon]
      · simpa using ih
      · simp
  | case5 x y z rest hc hnil ih =>
    exact absurd hnil (splitColon_ne_nil _)
  | case6 x y z rest hc h t hsp ih =>
    rw [splitColon, if_neg hc, hsp]
    rw [hsp] at ih
    rcases t with _ | ⟨t1, t2⟩
    · rw [joinColon] at ih ⊢
      simp [ih]
    · rw [joinColon] at ih ⊢
      · simp at ih ⊢
        simp [ih]
      · simp
      · simp

/-- The splitChar result is never the empty list. -/
theorem splitChar_ne_nil (c : Char) (s : Str) : splitChar c s ≠ [] := by
  match s with
  | [] => simp [splitChar]
  | x :: xs =>
    rw [splitChar]
    split
    · simp
    · rcases h : splitChar c xs with _ | ⟨a, t⟩ <;> simp

/-- A one character split yields a single piece exactly when the separator
character does not occur in the string. -/
theorem splitChar_length_eq_one_iff (c : Char) (s : Str) :
    (splitChar c s).length = 1 ↔ c ∉ s := by
  induction s using splitChar.induct c with
  | case1 => simp [splitChar]
  | case2 xs ih =>
    rw [splitChar, if_pos rfl]
    rcases h : splitChar c xs with _ | ⟨a, t⟩
    · exact absurd h (splitChar_ne_nil _ _)
    · simp
  | case3 x xs hx hnil ih =>
    exact absurd hnil (splitChar_ne_nil _ _)
  | case4 x xs hx h t hsp ih =>
    rw [splitChar, if_neg hx, hsp]
    rw [hsp] at ih
    simp only [List.length_cons, List.mem_cons] at ih ⊢
    constructor
    · intro ht
      have hxs : c ∉ xs := ih.mp (by omega)
      intro hor
      rcases hor with h1 | h2
      · exact hx h1.symm
      · exact hxs h2
    · intro hcx
      have h2 : c ∉ xs := fun hm => hcx (Or.inr hm)
      have := ih.mpr h2
      omega

/-- When a one character split collapses to a single piece, that piece is the
whole input. -/
theorem splitChar_eq_singleton (c : Char) (s : Str) (h : Str)
    (hs : splitChar c s = [h]) : h = s := by
  induction s using splitChar.induct c generalizing h with
  | case1 => simpa [splitChar] using hs
  | case2 xs ih =>
    rw [splitChar, if_pos rfl] at hs
    rcases hsp : splitChar c xs with _ | ⟨a, t⟩
    · exact absurd hsp (splitChar_ne_nil _ _)
    · rw [hsp] at hs; simp at hs
  | case3 x xs hx hnil ih =>
    exact absurd hnil (splitChar_ne_nil _ _)
  | case4 x xs hx a t hsp ih =>
    have hstep : splitChar c (x :: xs) = (x :: a) :: t := by
      rw [splitChar, if_neg hx, hsp]
    rw [hstep] at hs
    simp at hs
    obtain ⟨hha, ht⟩ := hs
    subst ht
    have := ih a hsp
    subst this
    simp [hha]

/-- The final piece of a one character split is empty exactly when the input
is empty or ends with the separator character. -/
theorem splitChar_getLast_eq_nil_iff (c : Char) (s : Str) :
    (splitChar c s).getLast? = some [] ↔ (s = [] ∨ s.getLast? = some c) := by
  induction s using splitChar.induct c with
  | case1 => simp [splitChar]
  | case2 xs ih =>
    rcases hsp : splitChar c xs with _ | ⟨a, t⟩
    · exact absurd hsp (splitChar_ne_nil _ _)
    · have hstep : splitChar c (c :: xs) = [] :: a :: t := by
        rw [splitChar, if_pos rfl, hsp]
      rw [hstep, List.getLast?_cons_cons]
      rw [hsp] at ih
      rcases xs with _ | ⟨x1, xs1⟩
      · simp [splitChar] at hsp
        obtain ⟨h1, h2⟩ := hsp
        subst h1; subst h2
        simp
      · rw [List.getLast?_cons_cons]
        simp at ih ⊢
        exact ih
  | case3 x xs hx hnil ih =>
    exact absurd hnil (splitChar_ne_nil _ _)
  | case4 x xs hx a t hsp ih =>
    have hstep : splitChar c (x :: xs) = (x :: a) :: t := by
      rw [splitChar, if_neg hx, hsp]
    rw [hstep]
    rw [hsp] at ih
    rcases t with _ | ⟨t1, t2⟩
    · have ha : a = xs := splitChar_eq_singleton c xs a hsp
      rcases xs with _ | ⟨x1, xs1⟩
      · subst ha
        simp
        intro h1
        exact hx h1
      · subst ha
        rw [List.getLast?_cons_cons]
        simp at ih ⊢
        exact ih
    · rw [List.getLast?_cons_cons]
      rcases xs with _ | ⟨x1, xs1⟩
      · simp [splitChar] at hsp
      · rw [List.getLast?_cons_cons]
        simp only [List.getLast?_cons_cons] at ih
        simp at ih ⊢
        exact ih

/-- A successful error-propagating map relates input and output pointwise, in
order. -/
theorem mapE_ok_forall₂ {α β ε : Type} (f : α → Except ε β) (l : List α)
    (ys : List β) (h : mapE f l = .ok ys) :
    List.Forall₂ (fun x y => f x = .ok y) l ys := by
  induction l generalizing ys with
  | nil =>
    rw [mapE] at h
    have := Except.ok.inj h
    subst this
    exact List.Forall₂.nil
  | cons x xs ih =>
    rw [mapE] at h
    rcases hf : f x with e | y <;> rw [hf] at h
    · exact Except.noConfusion h
    · rcases hm : mapE f xs with e2 | ys2 <;> rw [hm] at h
      · exact Except.noConfusion h
      · have := Except.ok.inj h
        subst this
        exact List.Forall₂.cons hf (ih ys2 hm)

/-- When any element of the list fails, the error-propagating map fails. -/
theorem mapE_error_of_mem {α β ε : Type} (f : α → Except ε β) (l : List α)
    (x : α) (e : ε) (hx : x ∈ l) (hf : f x = .error e) :
    ∃ e2, mapE f l = .error e2 := by
  induction l with
  | nil => simp at hx
  | cons a as ih =>
    rw [mapE]
    rcases hfa : f a with ea | ya
    · exact ⟨ea, rfl⟩
    · rcases List.mem_cons.mp hx with h1 | h2
      · subst h1
        rw [hfa] at hf
        exact Except.noConfusion hf
      · obtain ⟨e2, hm⟩ := ih h2
        rw [hm]
        exact ⟨e2, rfl⟩

/-- Rule parsing succeeds with a given pair exactly when the split is that
two element list. -/
theorem parseRule_ok_iff (line n f : Str) :
    parseRule line = .ok (n, f) ↔ splitColon line = [n, f] := by
  rcases h : splitColon line with _ | ⟨a, _ | ⟨b, _ | ⟨c3, t⟩⟩⟩ <;>
    simp [parseRule, h]

/-- Rule parsing fails, with a MalformedRuleError carrying the chunk, exactly
when the separator occurrence count differs from one. -/
theorem parseRule_error_iff (line : Str) :
    parseRule line = .error (.malformedRule line) ↔ colonCount line ≠ 1 := by
  have hl := splitColon_length line
  rcases h : splitColon line with _ | ⟨a, _ | ⟨b, _ | ⟨c3, t⟩⟩⟩ <;>
    rw [h] at hl <;> simp at hl <;> simp [parseRule, h] <;> omega

/-- Field name extraction fails, with a MalformedFieldError carrying the
field string, exactly when the field contains no space. -/
theorem fieldName_error_iff (f : Str) :
    fieldName f = .error (.malformedField f) ↔ ' ' ∉ f := by
  have hne := splitChar_ne_nil ' ' f
  have hone := splitChar_length_eq_one_iff ' ' f
  rcases h : splitChar ' ' f with _ | ⟨a, _ | ⟨b, t⟩⟩
  · exact absurd h hne
  · rw [h] at hone
    simp at hone
    simp [fieldName, h, hone]
  · rw [h] at hone
    simp at hone
    simp [fieldName, h, hone]

/-- A stripped all-whitespace string is empty. -/
theorem strip_eq_nil_of_all (s : Str) (h : ∀ c ∈ s, isPySpace c = true) :
    strip s = [] := by
  have h1 : s.dropWhile isPySpace = [] := by
    rw [List.dropWhile_eq_nil_iff]
    exact h
  simp [strip, h1]

/-- The generated text depends on the grammar only through the surviving rule
chunks. -/
theorem generate_congr (b g1 g2 : Str) (h : ruleChunks g1 = ruleChunks g2) :
    generate b g1 = generate b g2 := by
  unfold generate genBlocks
  rw [h]

/-- On a chunk whose parse and field name extraction succeed, the emitted
block is exactly the template lines. -/
theorem ruleBlock_eq (b line n f : Str) (names : List Str)
    (h1 : parseRule line = .ok (n, f))
    (h2 : mapE fieldName (splitCommaSpace f) = .ok names) :
    ruleBlock b line = .ok (blockLines b n f names) := by
  simp only [ruleBlock, h1, h2]

/-- A chunk list is reconstructible from the rule records it parses to. -/
theorem chunks_eq_of_rules (l : List Str) (rs : List (Str × Str))
    (h : List.Forall₂ (fun c r => parseRule c = .ok r) l rs) :
    l = rs.map (fun p => p.1 ++ ' ' :: ':' :: ' ' :: p.2) := by
  induction h with
  | nil => rfl
  | @cons a r l2 rs2 hcr hrest ih =>
    rcases r with ⟨n, f⟩
    have hc : splitColon a = [n, f] := (parseRule_ok_iff a n f).mp hcr
    have hj := splitColon_join a
    rw [hc] at hj
    rw [joinColon] at hj
    · rw [joinColon] at hj
      simp [ih, ← hj]
    · simp

/-- C1 counterexample: for the round trip grammar the two emitted subtype
blocks carry the parsed names Binary and space-Unary: splitting on the
semicolon keeps the space that followed it, so the second block is not named
Unary as the claim states, and its class header line differs from the one a
name without the space would produce. -/
theorem c1_second_block_name_counterexample :
    ruleNames "Binary : Expr left, Token operator, Expr right; Unary : Token operator, Expr right;".toList
        = .ok ["Binary".toList, " Unary".toList]
    ∧ ruleNames "Binary : Expr left, Token operator, Expr right; Unary : Token operator, Expr right;".toList
        ≠ .ok ["Binary".toList, "Unary".toList]
    ∧ classLine base_name " Unary".toList ≠ classLine base_name "Unary".toList := by
  refine ⟨by decide, by decide, by decide⟩

/-- C1 (amended): for the round trip grammar the output contains exactly two
subtype blocks, named Binary and space-Unary in that order (the leading space
of the second name carried over from the text after the first semicolon);
the Binary initializer takes the three parameters left, operator, right in
that order and the block declares the three fields in the same order; the
Unary initializer takes the two parameters operator, right in that order. -/
theorem c1_roundtrip_blocks :
    genBlocks base_name "Binary : Expr left, Token operator, Expr right; Unary : Token operator, Expr right;".toList
      = .ok
        [ [classLine base_name "Binary".toList,
           ctorLine "Binary".toList "Expr left, Token operator, Expr right".toList,
           assignLine "left".toList, assignLine "operator".toList, assignLine "right".toList,
           ctorEnd,
           declLine "Expr left".toList, declLine "Token operator".toList, declLine "Expr right".toList,
           classEnd],
          [classLine base_name " Unary".toList,
           ctorLine " Unary".toList "Token operator, Expr right".toList,
           assignLine "operator".toList, assignLine "right".toList,
           ctorEnd,
           declLine "Token operator".toList, declLine "Expr right".toList,
           classEnd] ] := by decide

/-- C2: the generated text is a pure function of the base name and the parsed
rule sequence: any two grammar texts whose surviving chunks parse to the same
rule records generate identical output, with no other dependence; in
particular repeated runs on identical input are byte-identical. -/
theorem c2_pure_function_of_rules (b g1 g2 : Str) (rs : List (Str × Str))
    (h1 : rulesOf g1 = .ok rs) (h2 : rulesOf g2 = .ok rs) :
    generate b g1 = generate b g2 := by
  have f1 := mapE_ok_forall₂ parseRule (ruleChunks g1) rs h1
  have f2 := mapE_ok_forall₂ parseRule (ruleChunks g2) rs h2
  have e1 := chunks_eq_of_rules (ruleChunks g1) rs f1
  have e2 := chunks_eq_of_rules (ruleChunks g2) rs f2
  exact generate_congr b g1 g2 (e1.trans e2.symm)

/-- C2 witness: two textually different grammars with the same rule records
generate identical output. -/
theorem c2_witness :
    generate "Expr".toList "A : T x;".toList
      = generate "Expr".toList "\nA : T x;  ".toList :=
  c2_pure_function_of_rules "Expr".toList _ _ [("A".toList, "T x".toList)]
    (by decide) (by decide)

/-- C3 counterexample: a grammar containing a clause without the separator can
abort with a MalformedFieldError raised by an earlier clause, not with a
MalformedRuleError as the claim states. -/
theorem c3_field_error_preempts_counterexample :
    "Bad Expr x".toList ∈ ruleChunks "A : x;Bad Expr x;".toList
    ∧ colonCount "Bad Expr x".toList = 0
    ∧ generate base_name "A : x;Bad Expr x;".toList = .error (.malformedField "x".toList)
    ∧ isRuleError (generate base_name "A : x;Bad Expr x;".toList) = false := by
  refine ⟨by decide, by decide, by decide, by decide⟩

/-- C3 (amended): for every grammar text with a surviving rule clause that
lacks the separator, the run aborts with an error, a MalformedRuleError or a
MalformedFieldError from whichever malformed construct comes first, and the
output file is not produced: the previous file state is left untouched because
the failure occurs before any write. -/
theorem c3_missing_separator_aborts_before_write (g : Str) (fs : Option Str)
    (h : ∃ chunk ∈ ruleChunks g, colonCount chunk = 0) :
    (∃ e, generate base_name g = .error e) ∧ runWith g fs = fs := by
  obtain ⟨chunk, hmem, hcc⟩ := h
  have hpe : parseRule chunk = .error (.malformedRule chunk) :=
    (parseRule_error_iff chunk).mpr (by omega)
  have hrb : ruleBlock base_name chunk = .error (.malformedRule chunk) := by
    simp only [ruleBlock, hpe]
  obtain ⟨e2, hm⟩ :=
    mapE_error_of_mem (ruleBlock base_name) (ruleChunks g) chunk _ hmem hrb
  have hg : generate base_name g = .error e2 := by
    simp only [generate, genBlocks, hm]
  exact ⟨⟨e2, hg⟩, by simp only [runWith, hg]⟩

/-- C3 witness: the scenario grammar Bad Expr x; aborts and an existing target
file is left untouched. -/
theorem c3_witness :
    (∃ e, generate base_name "Bad Expr x;".toList = .error e)
    ∧ runWith "Bad Expr x;".toList (some "old content".toList)
        = some "old content".toList :=
  c3_missing_separator_aborts_before_write "Bad Expr x;".toList
    (some "old content".toList) ⟨"Bad Expr x".toList, by decide, by decide⟩

/-- C4 counterexample: the grammar text consisting of a single semicolon
consists only of whitespace and semicolons, yet generation fails with a
MalformedRuleError on the surviving empty chunk instead of succeeding. -/
theorem c4_semicolon_only_counterexample :
    (";".toList.all fun c => isPySpace c || c == ';') = true
    ∧ generate base_name ";".toList = .error (.malformedRule []) := by
  refine ⟨by decide, by decide⟩

/-- C4 (amended): for every grammar text consisting only of whitespace,
generation succeeds with zero subtype blocks and the output is exactly the
header followed by the footer. -/
theorem c4_whitespace_only_header_footer (b g : Str)
    (h : ∀ c ∈ g, isPySpace c = true) :
    genBlocks b g = .ok [] ∧ generate b g = .ok (headerText b ++ footerText) := by
  have hall : ∀ c ∈ removeNewlines g, isPySpace c = true := by
    intro c hc
    exact h c (List.mem_of_mem_filter hc)
  have hs : strip (removeNewlines g) = [] := strip_eq_nil_of_all _ hall
  have hrc : ruleChunks g = [] := by
    simp [ruleChunks, hs, splitChar]
  constructor
  · simp [genBlocks, hrc, mapE]
  · simp [generate, genBlocks, hrc, mapE]

/-- C4 witness: a whitespace-only grammar yields header and footer only. -/
theorem c4_witness :
    genBlocks "Expr".toList " \t ".toList = .ok []
    ∧ generate "Expr".toList " \t ".toList
        = .ok (headerText "Expr".toList ++ footerText) :=
  c4_whitespace_only_header_footer "Expr".toList " \t ".toList (by decide)

/-- C5: a rule chunk fails with a MalformedRuleError exactly when the three
character separator is missing or occurs more than once (occurrences counted
leftmost and non-overlapping, as Python does); with exactly one occurrence the
chunk splits into exactly the two parts, rule name left and field list right. -/
theorem c5_rule_split_spec (chunk : Str) :
    (parseRule chunk = .error (.malformedRule chunk)
      ↔ (colonCount chunk = 0 ∨ 1 < colonCount chunk))
    ∧ (colonCount chunk = 1 →
        ∃ n f, parseRule chunk = .ok (n, f) ∧ splitColon chunk = [n, f]) := by
  constructor
  · rw [parseRule_error_iff]
    omega
  · intro h1
    have hl := splitColon_length chunk
    rw [h1] at hl
    rcases hsp : splitColon chunk with _ | ⟨a, _ | ⟨b, _ | ⟨c3, t⟩⟩⟩
    · exact absurd hsp (splitColon_ne_nil _)
    · rw [hsp] at hl
      simp at hl
    · exact ⟨a, b, (parseRule_ok_iff chunk a b).mpr hsp, rfl⟩
    · rw [hsp] at hl
      simp at hl

/-- C5 witness: a chunk without the separator errors; a chunk with exactly one
separator splits into its two parts. -/
theorem c5_witness :
    parseRule "AB".toList = .error (.malformedRule "AB".toList)
    ∧ ∃ n f, parseRule "A : B".toList = .ok (n, f)
        ∧ splitColon "A : B".toList = [n, f] :=
  ⟨(c5_rule_split_spec "AB".toList).1.mpr (Or.inl (by decide)),
   (c5_rule_split_spec "A : B".toList).2 (by decide)⟩

/-- C6 counterexample: for a field string with two spaces the extracted name
is the token between the first and second space, not everything after the
first space as the claim states. -/
theorem c6_second_token_counterexample :
    "Expr left extra".toList = "Expr".toList ++ ' ' :: "left extra".toList
    ∧ ' ' ∉ "Expr".toList
    ∧ fieldName "Expr left extra".toList = .ok "left".toList
    ∧ "left".toList ≠ "left extra".toList := by
  refine ⟨by decide, by decide, by decide, by decide⟩

/-- C6 (amended): the parser splits the field string on every space and takes
the second piece, the text between the first and second space (which is
everything after the first space only when the field has exactly one space),
as the name; it fails with a MalformedFieldError exactly when the field string
contains no space. -/
theorem c6_field_split_spec (field : Str) :
    (fieldName field = .error (.malformedField field) ↔ ' ' ∉ field)
    ∧ (' ' ∈ field →
        ∃ t n rest, splitChar ' ' field = t :: n :: rest ∧ fieldName field = .ok n) := by
  constructor
  · exact fieldName_error_iff field
  · intro hmem
    have hone := splitChar_length_eq_one_iff ' ' field
    rcases hsp : splitChar ' ' field with _ | ⟨a, _ | ⟨b, t⟩⟩
    · exact absurd hsp (splitChar_ne_nil _ _)
    · rw [hsp] at hone
      simp at hone
      exact absurd hmem hone
    · exact ⟨a, b, t, rfl, by simp [fieldName, hsp]⟩

/-- C6 witness: a spaceless field errors; a one-space field yields its second
token. -/
theorem c6_witness :
    fieldName "Txt".toList = .error (.malformedField "Txt".toList)
    ∧ ∃ t n rest, splitChar ' ' "T a".toList = t :: n :: rest
        ∧ fieldName "T a".toList = .ok n :=
  ⟨(c6_field_split_spec "Txt".toList).1.mpr (by decide),
   (c6_field_split_spec "T a".toList).2 (by decide)⟩

/-- C7: for every well-formed rule the emitted block is the template whose
constructor parameter list is the raw field list in grammar order, whose
assignments follow the extracted names in field order, and whose public
declarations follow the raw field strings in field order; and the emitted
blocks correspond to the rule chunks pointwise in grammar order. -/
theorem c7_order_preservation :
    (∀ b line n f names, parseRule line = .ok (n, f) →
        mapE fieldName (splitCommaSpace f) = .ok names →
        ruleBlock b line = .ok (blockLines b n f names))
    ∧ (∀ b g blocks, genBlocks b g = .ok blocks →
        List.Forall₂ (fun c bl => ruleBlock b c = .ok bl) (ruleChunks g) blocks) := by
  constructor
  · intro b line n f names h1 h2
    exact ruleBlock_eq b line n f names h1 h2
  · intro b g blocks h
    exact mapE_ok_forall₂ (ruleBlock b) (ruleChunks g) blocks h

/-- C7 witness: the order preservation theorem applied to the rule
R : T1 a, T2 b, T3 c. -/
theorem c7_witness :
    ruleBlock "Expr".toList "R : T1 a, T2 b, T3 c".toList
      = .ok (blockLines "Expr".toList "R".toList "T1 a, T2 b, T3 c".toList
          ["a".toList, "b".toList, "c".toList])
    ∧ List.Forall₂ (fun c bl => ruleBlock "Expr".toList c = .ok bl)
        (ruleChunks "R : T1 a, T2 b, T3 c;".toList)
        [blockLines "Expr".toList "R".toList "T1 a, T2 b, T3 c".toList
          ["a".toList, "b".toList, "c".toList]] :=
  ⟨c7_order_preservation.1 "Expr".toList "R : T1 a, T2 b, T3 c".toList
      "R".toList "T1 a, T2 b, T3 c".toList
      ["a".toList, "b".toList, "c".toList] (by decide) (by decide),
   c7_order_preservation.2 "Expr".toList "R : T1 a, T2 b, T3 c;".toList
      [blockLines "Expr".toList "R".toList "T1 a, T2 b, T3 c".toList
        ["a".toList, "b".toList, "c".toList]] (by decide)⟩

/-- C8: for every well-formed rule there are exactly as many assignment
statements as fields, each field string paired positionally with the one
extracted name its assignment uses, in field order, so every declared field
has exactly one assignment and no assignment references a name not extracted
from the rule its own field list. -/
theorem c8_assignment_completeness (b line n f : Str) (names : List Str)
    (h1 : parseRule line = .ok (n, f))
    (h2 : mapE fieldName (splitCommaSpace f) = .ok names) :
    names.length = (splitCommaSpace f).length
    ∧ List.Forall₂ (fun fld nm => fieldName fld = .ok nm) (splitCommaSpace f) names
    ∧ ruleBlock b line = .ok (blockLines b n f names) := by
  have hf := mapE_ok_forall₂ fieldName (splitCommaSpace f) names h2
  exact ⟨hf.length_eq.symm, hf, ruleBlock_eq b line n f names h1 h2⟩

/-- C8 witness: assignment completeness applied to the rule
S : Expr left, Token op. -/
theorem c8_witness :
    ["left".toList, "op".toList].length
        = (splitCommaSpace "Expr left, Token op".toList).length
    ∧ List.Forall₂ (fun fld nm => fieldName fld = .ok nm)
        (splitCommaSpace "Expr left, Token op".toList)
        ["left".toList, "op".toList]
    ∧ ruleBlock "Expr".toList "S : Expr left, Token op".toList
        = .ok (blockLines "Expr".toList "S".toList "Expr left, Token op".toList
            ["left".toList, "op".toList]) :=
  c8_assignment_completeness "Expr".toList "S : Expr left, Token op".toList
    "S".toList "Expr left, Token op".toList ["left".toList, "op".toList]
    (by decide) (by decide)

/-- C9: the optional positional command-line argument has no effect: for any
two argv vectors, and in particular with and without the argument, the
program produces the same file state, namely what main alone produces. -/
theorem c9_argv_noninterference (a1 a2 : List Str) (fs : Option Str) :
    program a1 fs = program a2 fs ∧ program a1 fs = runMain fs :=
  ⟨rfl, rfl⟩

/-- C9 witness: the noninterference theorem at a concrete pair of argv
vectors. -/
theorem c9_witness :
    program ["tool".toList, "arg".toList] (some []) = program ["tool".toList] (some [])
    ∧ program ["tool".toList, "arg".toList] (some []) = runMain (some []) :=
  c9_argv_noninterference ["tool".toList, "arg".toList] ["tool".toList] (some [])

/-- C10: the parser unconditionally discards the last chunk of the semicolon
split of the cleaned grammar text: when the cleaned text ends in a semicolon
the discarded chunk is the empty trailing chunk, and when a nonempty cleaned
text does not end in a semicolon the discarded last chunk is a nonempty final
clause, silently dropped. -/
theorem c10_trailing_chunk_dropped (g : Str) :
    ruleChunks g = (splitChar ';' (strip (removeNewlines g))).dropLast
    ∧ ((strip (removeNewlines g)).getLast? = some ';' →
        (splitChar ';' (strip (removeNewlines g))).getLast? = some [])
    ∧ (strip (removeNewlines g) ≠ [] →
        (strip (removeNewlines g)).getLast? ≠ some ';' →
        ∃ cl, (splitChar ';' (strip (removeNewlines g))).getLast? = some cl ∧ cl ≠ []) := by
  refine ⟨rfl, ?_, ?_⟩
  · intro hend
    exact (splitChar_getLast_eq_nil_iff ';' _).mpr (Or.inr hend)
  · intro hne hend
    have h1 := splitChar_ne_nil ';' (strip (removeNewlines g))
    rcases hLast : (splitChar ';' (strip (removeNewlines g))).getLast? with _ | cl
    · rcases hsp : splitChar ';' (strip (removeNewlines g)) with _ | ⟨a, t⟩
      · exact absurd hsp h1
      · rw [hsp] at hLast
        simp at hLast
    · refine ⟨cl, rfl, ?_⟩
      intro hcl
      subst hcl
      have h2 := (splitChar_getLast_eq_nil_iff ';' (strip (removeNewlines g))).mp hLast
      rcases h2 with h2 | h2
      · exact hne h2
      · exact hend h2

/-- C10 witness: a grammar whose cleaned text does not end in a semicolon has
a nonempty, silently dropped final clause. -/
theorem c10_witness :
    ∃ cl, (splitChar ';' (strip (removeNewlines "A : T x; trailing".toList))).getLast? = some cl
      ∧ cl ≠ [] :=
  (c10_trailing_chunk_dropped "A : T x; trailing".toList).2.2 (by decide) (by decide)

end GenAst

